import Mathlib

/-!
Verification of the core algorithms of the crypto return analyzer
(`backtest.py`): incremental candle synchronization (`fetch_historical_data`,
`update_all_coins`) and periodic-return distribution computation
(`analyze_periodic_distribution`, `CryptoApp.calculate_distribution`).

The Python code is shallowly embedded: DataFrames of candles become lists of
`Candle`, float arithmetic on prices and returns becomes exact rational
arithmetic, NaN entries of a pandas column become `none` in `List (Option ℚ)`,
and a Python function that can raise returns `Option`.  The HTTP source is
abstracted as a stream of per-attempt responses.
-/

namespace CryptoAnalyzer

/-- One daily candle: a timestamp (`candle_date_time_kst`, modelled as a day
index) and a closing price (`trade_price`). -/
structure Candle where
  ts : ℕ
  close : ℚ
deriving DecidableEq

/-- One reply of the upstream candle source to one HTTP attempt:
status 200 with a (possibly empty) batch of candles in the source order
(newest first), status 429 (rate limited), or any other failing status. -/
inductive Response where
  | ok (data : List Candle)
  | rateLimited
  | err
deriving DecidableEq

/-- Retry loop of `fetch_historical_data` (backtest.py lines 30-48).
`r` is the remaining retry budget (`retries`), `i` the index of the next
attempt in the response stream, `sleeps` the total backoff time slept so far
(`time.sleep(10)` adds 10 units).  A 200 reply returns the batch reversed
(`df[::-1]`, chronological order; an empty batch stays empty), a 429 reply
sleeps 10 units and decrements the budget, any other status returns an empty
batch.  When the budget reaches 0 the `while` loop falls through and the
Python function returns `None`, modelled as `none`. -/
def fetchGo (source : ℕ → Response) : ℕ → ℕ → ℕ → Option (List Candle) × ℕ
  | 0, _, sleeps => (none, sleeps)
  | r + 1, i, sleeps =>
    match source i with
    | .ok data => (some data.reverse, sleeps)
    | .rateLimited => fetchGo source r (i + 1) (sleeps + 10)
    | .err => (some [], sleeps)

/-- The function `fetch_historical_data` with its fixed budget `retries = 3`.
Returns the fetched batch (`none` for the Python `None` fall-through) together
with the total backoff time slept. -/
def fetchHistoricalData (source : ℕ → Response) : Option (List Candle) × ℕ :=
  fetchGo source 3 0 0

/-- Maximum stored timestamp, `existing_data['candle_date_time_kst'].max()`
(only used on a non-empty series). -/
def maxTs : List Candle → ℕ
  | [] => 0
  | c :: rest => (rest.map Candle.ts).foldl max c.ts

/-- Outcome of the per-coin body of `update_all_coins` for one coin:
the series was extended and saved, nothing new was saved (`No new data`),
or the body raised (an `AttributeError` from `None.empty` when
`fetch_historical_data` exhausted its retries and returned `None`). -/
inductive UpdateOutcome where
  | updated
  | noNewData
  | crashed
deriving DecidableEq

/-- Per-coin body of `update_all_coins` (backtest.py lines 69-91), given the
stored series and the batch returned by `fetch_historical_data`.  Returns the
outcome together with the stored series after the body ran.  For a non-empty
store, the fetched batch is filtered to timestamps strictly greater than the
stored maximum before `pd.concat([existing_data, new_data])`; an empty
filtered batch means no write.  A `none` fetch result crashes on
`new_data.empty` and leaves the store untouched. -/
def updateCoin (existing : List Candle) (fetched : Option (List Candle)) :
    UpdateOutcome × List Candle :=
  match fetched with
  | none => (.crashed, existing)
  | some new0 =>
    if existing = [] then
      if new0 = [] then (.noNewData, existing) else (.updated, new0)
    else
      if new0 = [] then (.noNewData, existing)
      else
        let filtered := new0.filter (fun c => maxTs existing < c.ts)
        if filtered = [] then (.noNewData, existing)
        else (.updated, existing ++ filtered)

/-- Loop of `update_all_coins` over the coin list.  Each coin is given as its
stored series paired with the batch its fetch produced.  The body of the loop
has no exception handler, so a `crashed` outcome propagates and aborts the
remaining coins; the boolean records whether the loop ran to completion. -/
def updateAllCoins :
    List (List Candle × Option (List Candle)) →
      List (UpdateOutcome × List Candle) × Bool
  | [] => ([], true)
  | (existing, fetched) :: rest =>
    let step := updateCoin existing fetched
    if step.1 = .crashed then ([step], false)
    else
      let tail := updateAllCoins rest
      (step :: tail.1, tail.2)

/-- A coin DataFrame: the timestamp column `candle_date_time_kst` (day
indices), the closing-price column `trade_price`, and the optional column
`return` whose entries may be NaN (`none`). -/
structure Df where
  ts : List ℕ
  close : List ℚ
  ret : Option (List (Option ℚ))
deriving DecidableEq

/-- The three values of the period dropdown. -/
inductive Period where
  | daily
  | weekly
  | monthly
deriving DecidableEq

/-- Tail of `Series.pct_change() * 100`: given the previous close, each next
close `c` contributes `(c - p) / p * 100`. -/
def pctGo : ℚ → List ℚ → List (Option ℚ)
  | _, [] => []
  | p, c :: rest => some ((c - p) / p * 100) :: pctGo c rest

/-- The expression `df['trade_price'].pct_change() * 100`: the first entry is
NaN (`none`), entry `i ≥ 1` is the percent change from close `i - 1` to
close `i`. -/
def pct_change100 : List ℚ → List (Option ℚ)
  | [] => []
  | c :: rest => none :: pctGo c rest

/-- Rows of `df` (timestamp, close) that fall into period `p` under the
period assignment `periodOf`. -/
def rowsIn (periodOf : ℕ → ℕ) (df : Df) (p : ℕ) : List (ℕ × ℚ) :=
  (df.ts.zip df.close).filter (fun r => periodOf r.1 == p)

/-- Close of the latest row inside period `p`, or `none` (NaN) when the
period holds no row — pandas `resample(...).last()` emits a NaN row for an
empty period between the first and last observed periods. -/
def lastCloseIn (periodOf : ℕ → ℕ) (df : Df) (p : ℕ) : Option ℚ :=
  match rowsIn periodOf df p with
  | [] => none
  | r :: rs => some ((rs.foldl (fun a b => if a.1 ≤ b.1 then b else a) r).2)

/-- The series `df.resample(freq, on='candle_date_time_kst').last()['trade_price']`:
one entry per period from the first to the last observed period, each the
period's latest close or NaN for an empty period. -/
def resampleLastCloses (periodOf : ℕ → ℕ) (df : Df) : List (Option ℚ) :=
  match df.ts.map periodOf with
  | [] => []
  | p :: ps =>
    let lo := ps.foldl min p
    let hi := ps.foldl max p
    (List.range (hi + 1 - lo)).map (fun i => lastCloseIn periodOf df (lo + i))

/-- Tail recursion of pandas `pct_change()` with its default
`fill_method='pad'`: NaN entries are forward-filled before differencing, and
an entry with no preceding filled value yields NaN. -/
def pctChangePadGo : Option ℚ → List (Option ℚ) → List (Option ℚ)
  | _, [] => []
  | prev, x :: rest =>
    let cur := match x with | some c => some c | none => prev
    (match prev, cur with
     | some p, some c => some ((c - p) / p)
     | _, _ => none) :: pctChangePadGo cur rest

/-- pandas `pct_change()` over a column with possible NaN entries. -/
def pctChangePad (xs : List (Option ℚ)) : List (Option ℚ) :=
  pctChangePadGo none xs

/-- Calendar week of a day index for the `'W-MON'` resample rule
(Monday-anchored weeks).  The claims never examine resampled values, so the
epoch convention (which day index starts a week) is immaterial; day indices
are grouped seven per week. -/
def weekOf (t : ℕ) : ℕ := t / 7

/-- Calendar month of a day index for the `'M'` resample rule, modelled as
thirty days per month; as with `weekOf`, no claim depends on the exact
calendar boundaries. -/
def monthOf (t : ℕ) : ℕ := t / 30

/-- The series `df.resample(freq, on=...).last().pct_change()['trade_price'] * 100`. -/
def resampledReturns (periodOf : ℕ → ℕ) (df : Df) : List (Option ℚ) :=
  (pctChangePad (resampleLastCloses periodOf df)).map (Option.map (· * 100))

/-- Value returned by `analyze_periodic_distribution`: for `'daily'` the
mutated DataFrame itself, for `'weekly'`/`'monthly'` a bare pandas Series of
resampled returns (which has no `return` column). -/
inductive AnalyzeResult where
  | frame (df : Df)
  | series (s : List (Option ℚ))
deriving DecidableEq

/-- The function `analyze_periodic_distribution` (backtest.py lines 107-116).
The assignment `df['return'] = df['trade_price'].pct_change() * 100` runs
before the period branch, so the caller's DataFrame is mutated for every
period; the pair returned here is (DataFrame after the call, returned value). -/
def analyze_periodic_distribution (df : Df) (period : Period) :
    Df × AnalyzeResult :=
  let df2 : Df := { df with ret := some (pct_change100 df.close) }
  match period with
  | .daily => (df2, .frame df2)
  | .weekly => (df2, .series (resampledReturns weekOf df2))
  | .monthly => (df2, .series (resampledReturns monthOf df2))

/-- Python format `f"{b:+.0f}"` rounds the value to a whole number with ties
to even. -/
def roundHalfEven (q : ℚ) : ℤ :=
  if q - ⌊q⌋ < 1 / 2 then ⌊q⌋
  else if 1 / 2 < q - ⌊q⌋ then ⌊q⌋ + 1
  else if ⌊q⌋ % 2 = 0 then ⌊q⌋ else ⌊q⌋ + 1

/-- Label of a bin from its lower edge `b`: the expression
`f"{b:.0f}%" if b == 0 else f"{b:+.0f}%"` — `"0%"` for a zero edge, sign
then rounded magnitude then `"%"` otherwise (the sign is taken from the
value and the magnitude rounded half-even, matching the formatted output of
`:+.0f` also on values that round to zero, such as `"-0%"`). -/
def binLabel (b : ℚ) : String :=
  if b = 0 then "0%"
  else if 0 < b then "+" ++ toString (roundHalfEven b) ++ "%"
  else "-" ++ toString (roundHalfEven (-b)) ++ "%"

/-- The expression `math.floor(df['return'].min() / bin_size) * bin_size`. -/
def lowerEdge (minR w : ℚ) : ℚ :=
  (⌊minR / w⌋ : ℚ) * w

/-- Number of histogram bins: the edges are
`np.arange(min_return, max_return + bin_size, bin_size)` with
`min_return = floor(min / w) * w` and `max_return = ceil(max / w) * w`, which
in exact arithmetic is the arithmetic sequence of
`ceil(max / w) - floor(min / w) + 1` edges. -/
def nBins (minR maxR w : ℚ) : ℕ :=
  (⌈maxR / w⌉ - ⌊minR / w⌋).toNat

/-- The edge array `bins = np.arange(min_return, max_return + bin_size, bin_size)`. -/
def binEdges (minR maxR w : ℚ) : List ℚ :=
  (List.range (nBins minR maxR w + 1)).map
    (fun (i : ℕ) => lowerEdge minR w + (i : ℚ) * w)

/-- Membership of a value `x` in bin `i` of `m` bins with uniform width `w`
above `lower`, following `np.histogram`: half-open `[edge i, edge (i+1))`,
except the final bin, which also contains its right edge. -/
def inBin (lower w : ℚ) (m i : ℕ) (x : ℚ) : Bool :=
  decide (lower + i * w ≤ x) &&
    (decide (x < lower + (i + 1) * w) ||
      (i + 1 == m && decide (x = lower + (i + 1) * w)))

/-- Per-bin counts of `np.histogram(df['return'], bins=bins)`; NaN entries
and values outside the edge range fall into no bin. -/
def binCounts (vals : List ℚ) (lower w : ℚ) (m : ℕ) : List ℕ :=
  (List.range m).map (fun i => vals.countP (inBin lower w m i))

/-- The method `CryptoApp.calculate_distribution` (backtest.py lines
162-178), applied to the `return` column (`none` entries are NaN; pandas
`min`/`max` skip them and `np.histogram` counts none of them).  An all-NaN
or absent value set makes `df['return'].min()` NaN and `math.floor(NaN)`
raises `ValueError`, modelled as `none`.  With a single bin edge
(`nBins = 0`) `np.histogram` returns an empty count array, so the result is
an empty Series.  `density=True` divides each count by the bin width and by
the total of the counts (`n / db / n.sum()`), and the code rescales by
`100 * bin_size`; the labels come from `bins[:-1]`. -/
def calculate_distribution (ret : List (Option ℚ)) (bin_size : ℚ) :
    Option (List (String × ℚ)) :=
  match ret.filterMap id with
  | [] => none
  | v :: vs =>
    let minR := vs.foldl min v
    let maxR := vs.foldl max v
    let lower := lowerEdge minR bin_size
    let m := nBins minR maxR bin_size
    let counts := binCounts (v :: vs) lower bin_size m
    let total : ℚ := (counts.map (fun (c : ℕ) => (c : ℚ))).sum
    let distribution :=
      counts.map (fun (c : ℕ) => (c : ℚ) / bin_size / total * 100 * bin_size)
    let labels := (binEdges minR maxR bin_size).dropLast.map binLabel
    some (labels.zip distribution)

/-- The method body applied to a DataFrame: a missing `return` column
returns an empty Series (`pd.Series()`). -/
def calculate_distribution_df (df : Df) (bin_size : ℚ) :
    Option (List (String × ℚ)) :=
  match df.ret with
  | none => some []
  | some r => calculate_distribution r bin_size

/-- C1: for every asset, when the candle source signals rate-limiting, the
fetch retries within a fixed budget of 3 attempts, each retry preceded by a
10-unit backoff delay; a source rate-limited twice that succeeds on the third
attempt yields the successful data after exactly two 10-unit backoff delays,
and a source rate-limited on all 3 attempts yields the `SourceUnavailable`
outcome (the `None` fall-through of `fetch_historical_data`) and leaves the
stored series untouched. -/
theorem C1_rate_limit_retry (source : ℕ → Response) (existing : List Candle)
    (d : List Candle)
    (h0 : source 0 = .rateLimited) (h1 : source 1 = .rateLimited) :
    (source 2 = .ok d → fetchHistoricalData source = (some d.reverse, 20)) ∧
    (source 2 = .rateLimited →
      fetchHistoricalData source = (none, 30) ∧
      updateCoin existing (fetchHistoricalData source).1 = (.crashed, existing)) := by
  constructor
  · intro h2
    simp only [fetchHistoricalData, fetchGo, h0, h1, h2]
  · intro h2
    have hf : fetchHistoricalData source = (none, 30) := by
      simp only [fetchHistoricalData, fetchGo, h0, h1, h2]
    exact ⟨hf, by rw [hf]; rfl⟩

/-- Witness for C1 at two concrete sources: one rate-limited exactly twice,
one rate-limited on every attempt. -/
theorem C1_rate_limit_retry_witness :
    fetchHistoricalData
        (fun n => if n < 2 then .rateLimited else .ok [⟨1, 100⟩]) =
      (some [⟨1, 100⟩], 20) ∧
    fetchHistoricalData (fun _ => .rateLimited) = (none, 30) ∧
    updateCoin [⟨0, 50⟩] (fetchHistoricalData (fun _ => .rateLimited)).1 =
      (.crashed, [⟨0, 50⟩]) := by
  refine ⟨?_, ?_⟩
  · have h := (C1_rate_limit_retry
      (fun n => if n < 2 then .rateLimited else .ok [⟨1, 100⟩]) [] [⟨1, 100⟩]
      rfl rfl).1 rfl
    simpa using h
  · exact (C1_rate_limit_retry (fun _ => .rateLimited) [⟨0, 50⟩] [] rfl rfl).2 rfl

/-- C2: a sync on a non-empty stored series appends only candles with
timestamp strictly greater than the stored maximum (the fetched batch is
filtered before concatenation), never mutating, removing or reordering the
existing entries; an empty filtered batch means no write and the
`NoNewData` outcome, not an error. -/
theorem C2_merge_append_only (existing d : List Candle) (h : existing ≠ []) :
    (∀ c ∈ d.filter (fun c => maxTs existing < c.ts), maxTs existing < c.ts) ∧
    (d.filter (fun c => maxTs existing < c.ts) = [] →
      updateCoin existing (some d) = (.noNewData, existing)) ∧
    (d.filter (fun c => maxTs existing < c.ts) ≠ [] →
      updateCoin existing (some d) =
        (.updated, existing ++ d.filter (fun c => maxTs existing < c.ts)) ∧
      (existing ++ d.filter (fun c => maxTs existing < c.ts)).take existing.length =
        existing) := by
  refine ⟨fun c hc => ?_, fun hf => ?_, fun hf => ?_⟩
  · have := List.of_mem_filter hc
    exact of_decide_eq_true this
  · by_cases hd : d = []
    · subst hd; simp [updateCoin, h]
    · simp [updateCoin, h, hd, hf]
  · have hd : d ≠ [] := by rintro rfl; simp at hf
    refine ⟨by simp [updateCoin, h, hd, hf], List.take_left _ _⟩

/-- Witness for C2 at a concrete stored series: a fetched batch with one
strictly newer candle is appended after the untouched prefix, and a fetched
batch with nothing newer leaves the store unwritten with `NoNewData`. -/
theorem C2_merge_append_only_witness :
    updateCoin [⟨1, 100⟩] (some [⟨2, 110⟩]) = (.updated, [⟨1, 100⟩, ⟨2, 110⟩]) ∧
    ([⟨1, 100⟩, ⟨2, 110⟩] : List Candle).take 1 = [⟨1, 100⟩] ∧
    updateCoin [⟨1, 100⟩] (some [⟨0, 90⟩]) = (.noNewData, [⟨1, 100⟩]) := by
  have h1 := (C2_merge_append_only [⟨1, 100⟩] [⟨2, 110⟩] (by simp)).2.2 (by decide)
  have h2 := (C2_merge_append_only [⟨1, 100⟩] [⟨0, 90⟩] (by simp)).2.1 (by decide)
  exact ⟨by rw [h1.1]; rfl, by rw [← h1.2]; rfl, h2⟩

/-- C3: evaluation of `update_all_coins` on concrete batches of three
assets.  A `FetchFailed` on asset 2 (an empty fetched batch) does not abort
assets 1 and 3, as the claim states; but when asset 2's source is
rate-limited on all 3 attempts, `fetch_historical_data` returns `None`,
`new_data.empty` raises `AttributeError`, and the batch aborts before asset
3 is processed — so the claim's universal form ("a failure on one asset does
not abort processing of the other assets") fails on the code. -/
theorem C3_batch_isolation_eval :
    updateAllCoins
        [([⟨1, 100⟩], some [⟨2, 110⟩]),
         ([⟨1, 50⟩], some []),
         ([], some [⟨3, 70⟩])] =
      ([(.updated, [⟨1, 100⟩, ⟨2, 110⟩]), (.noNewData, [⟨1, 50⟩]),
        (.updated, [⟨3, 70⟩])], true) ∧
    updateAllCoins
        [([⟨1, 100⟩], some [⟨2, 110⟩]),
         ([⟨1, 50⟩], (fetchHistoricalData (fun _ => .rateLimited)).1),
         ([], some [⟨3, 70⟩])] =
      ([(.updated, [⟨1, 100⟩, ⟨2, 110⟩]), (.crashed, [⟨1, 50⟩])], false) :=
  ⟨rfl, rfl⟩

/-- C8: sync is idempotent under an unchanged upstream: when the source has
nothing newer than the stored maximum, one sync leaves the stored series
identical and a second sync returns exactly the same outcome and series. -/
theorem C8_sync_idempotent (existing fetched : List Candle) (h : existing ≠ [])
    (hle : ∀ c ∈ fetched, c.ts ≤ maxTs existing) :
    (updateCoin existing (some fetched)).2 = existing ∧
    updateCoin (updateCoin existing (some fetched)).2 (some fetched) =
      updateCoin existing (some fetched) := by
  have hfil : fetched.filter (fun c => maxTs existing < c.ts) = [] := by
    rw [List.filter_eq_nil_iff]
    intro c hc
    simpa using Nat.not_lt.2 (hle c hc)
  have hstep : updateCoin existing (some fetched) = (.noNewData, existing) := by
    by_cases hd : fetched = []
    · subst hd; simp [updateCoin, h]
    · simp [updateCoin, h, hd, hfil]
  rw [hstep]
  exact ⟨rfl, hstep⟩

/-- Witness for C8 at a concrete store whose source only returns candles at
or before the stored maximum timestamp. -/
theorem C8_sync_idempotent_witness :
    (updateCoin [⟨2, 100⟩] (some [⟨1, 90⟩, ⟨2, 95⟩])).2 = [⟨2, 100⟩] ∧
    updateCoin (updateCoin [⟨2, 100⟩] (some [⟨1, 90⟩, ⟨2, 95⟩])).2
        (some [⟨1, 90⟩, ⟨2, 95⟩]) =
      updateCoin [⟨2, 100⟩] (some [⟨1, 90⟩, ⟨2, 95⟩]) :=
  C8_sync_idempotent [⟨2, 100⟩] [⟨1, 90⟩, ⟨2, 95⟩] (by simp)
    (by intro c hc; fin_cases hc <;> simp [maxTs])

/-- Helper: entry `i` of the tail of the percent-change column, in terms of
the closes at `i` and `i + 1` of the original series (the head of `p :: l`
is the close preceding `l`). -/
theorem pctGo_getElem (p : ℚ) (l : List ℚ) (i : ℕ) (a b : ℚ)
    (ha : (p :: l)[i]? = some a) (hb : l[i]? = some b) :
    (pctGo p l)[i]? = some (some ((b - a) / a * 100)) := by
  induction l generalizing p i with
  | nil => simp at hb
  | cons c rest ih =>
    cases i with
    | zero =>
      simp only [List.getElem?_cons_zero, Option.some.injEq] at ha hb
      subst ha; subst hb
      simp [pctGo]
    | succ j =>
      simp only [List.getElem?_cons_succ] at ha hb
      simpa [pctGo] using ih c j ha hb

/-- C4: the daily percent return at index `i + 1` equals
`(close[i+1] - close[i]) / close[i] * 100`; for closes `[100, 110, 99]` the
daily return column is `[NaN, +10.0, -10.0]` — the second return computed
from 110, not from 100. -/
theorem C4_daily_return_formula :
    (∀ (closes : List ℚ) (i : ℕ) (a b : ℚ),
        closes[i]? = some a → closes[i + 1]? = some b →
        (pct_change100 closes)[i + 1]? = some (some ((b - a) / a * 100))) ∧
    (analyze_periodic_distribution ⟨[0, 1, 2], [100, 110, 99], none⟩ .daily).1.ret =
      some [none, some 10, some (-10)] := by
  constructor
  · intro closes i a b ha hb
    cases closes with
    | nil => simp at ha
    | cons c rest =>
      simp only [List.getElem?_cons_succ] at hb
      simpa [pct_change100] using pctGo_getElem c rest i a b ha hb
  · norm_num [analyze_periodic_distribution, pct_change100, pctGo]

/-- Witness for C4: the return at index 1 of the series `[100, 110, 99]` is
`+10`. -/
theorem C4_daily_return_formula_witness :
    (pct_change100 [100, 110, 99])[1]? = some (some 10) := by
  have h := C4_daily_return_formula.1 [100, 110, 99] 0 100 110 rfl rfl
  norm_num at h
  exact h

/-- C7: evaluation at a series of a single observation, period `'daily'`.
`analyze_periodic_distribution` returns a non-empty one-row frame whose
`return` column is all NaN — not an empty result — and
`calculate_distribution` on that frame raises `ValueError`
(`math.floor(NaN)`), modelled as `none`: insufficient data surfaces as an
exception, contradicting the claim. -/
theorem C7_insufficient_data_eval :
    analyze_periodic_distribution ⟨[0], [100], none⟩ .daily =
      (⟨[0], [100], some [none]⟩, .frame ⟨[0], [100], some [none]⟩) ∧
    calculate_distribution_df ⟨[0], [100], some [none]⟩ 1 = none :=
  ⟨rfl, rfl⟩

/-- C10: for every input frame and every period, `analyze_periodic_distribution`
mutates the caller's frame by setting the `return` column to the daily
percent changes; the frame therefore differs from the input whenever that
column was not already present with those values, and for the weekly and
monthly periods the returned value is a bare series that does not contain
the column. -/
theorem C10_return_column_mutation (df : Df) (p : Period) :
    (analyze_periodic_distribution df p).1 =
      { df with ret := some (pct_change100 df.close) } ∧
    (df.ret ≠ some (pct_change100 df.close) →
      (analyze_periodic_distribution df p).1 ≠ df) ∧
    (p ≠ .daily → ∃ s, (analyze_periodic_distribution df p).2 = .series s) := by
  have hA : (analyze_periodic_distribution df p).1 =
      { df with ret := some (pct_change100 df.close) } := by cases p <;> rfl
  refine ⟨hA, ?_, ?_⟩
  · intro hne heq
    rw [hA] at heq
    exact hne (congrArg Df.ret heq).symm
  · intro hp
    cases p with
    | daily => exact absurd rfl hp
    | weekly => exact ⟨_, rfl⟩
    | monthly => exact ⟨_, rfl⟩

/-- Witness for C10: a weekly request on a frame without a `return` column
leaves the frame changed, with the daily percent-change column added. -/
theorem C10_return_column_mutation_witness :
    (analyze_periodic_distribution ⟨[0, 7], [100, 110], none⟩ .weekly).1 =
      ⟨[0, 7], [100, 110], some [none, some 10]⟩ ∧
    (analyze_periodic_distribution ⟨[0, 7], [100, 110], none⟩ .weekly).1 ≠
      ⟨[0, 7], [100, 110], none⟩ := by
  have h := C10_return_column_mutation ⟨[0, 7], [100, 110], none⟩ .weekly
  constructor
  · rw [h.1]; norm_num [pct_change100, pctGo]
  · exact h.2.1 (by simp)

/-- Helper: unfolding of `calculate_distribution` when the `return` column
holds at least one finite value. -/
theorem calculate_distribution_eq (ret : List (Option ℚ)) (w v : ℚ) (vs : List ℚ)
    (hv : ret.filterMap id = v :: vs) :
    calculate_distribution ret w =
      some ((((binEdges (vs.foldl min v) (vs.foldl max v) w).dropLast.map binLabel).zip
        ((binCounts (v :: vs) (lowerEdge (vs.foldl min v) w) w
            (nBins (vs.foldl min v) (vs.foldl max v) w)).map
          (fun (c : ℕ) => (c : ℚ) / w /
            (((binCounts (v :: vs) (lowerEdge (vs.foldl min v) w) w
                (nBins (vs.foldl min v) (vs.foldl max v) w)).map
              (fun (c : ℕ) => (c : ℚ))).sum) * 100 * w)))) := by
  unfold calculate_distribution
  rw [hv]

/-- Helper: `calculate_distribution` on an all-NaN (or empty) column is the
`ValueError` of `math.floor(NaN)`. -/
theorem calculate_distribution_eq_none (ret : List (Option ℚ)) (w : ℚ)
    (hv : ret.filterMap id = []) :
    calculate_distribution ret w = none := by
  unfold calculate_distribution
  rw [hv]

/-- Helper: a left fold of `min` is bounded by its initial value. -/
theorem foldl_min_le_init (vs : List ℚ) : ∀ v : ℚ, vs.foldl min v ≤ v := by
  induction vs with
  | nil => intro v; simp
  | cons a l ih => intro v; exact le_trans (ih (min v a)) (min_le_left v a)

/-- Helper: a left fold of `min` is attained by the initial value or a list
element. -/
theorem foldl_min_mem (vs : List ℚ) : ∀ v : ℚ, vs.foldl min v ∈ v :: vs := by
  induction vs with
  | nil => simp
  | cons a l ih =>
    intro v
    have h := ih (min v a)
    simp only [List.foldl_cons]
    rcases List.mem_cons.1 h with h1 | h1
    · rw [h1]
      rcases min_choice v a with hm | hm <;> rw [hm] <;> simp
    · exact List.mem_cons_of_mem _ (List.mem_cons_of_mem _ h1)

/-- Helper: a left fold of `min` is bounded by every list element. -/
theorem foldl_min_le_mem (vs : List ℚ) : ∀ v x : ℚ, x ∈ vs → vs.foldl min v ≤ x := by
  induction vs with
  | nil => intro v x hx; simp at hx
  | cons a l ih =>
    intro v x hx
    rcases List.mem_cons.1 hx with rfl | hx
    · exact le_trans (foldl_min_le_init l (min v x)) (min_le_right v x)
    · exact ih (min v a) x hx

/-- Helper: a left fold of `max` dominates its initial value. -/
theorem le_foldl_max_init (vs : List ℚ) : ∀ v : ℚ, v ≤ vs.foldl max v := by
  induction vs with
  | nil => intro v; simp
  | cons a l ih => intro v; exact le_trans (le_max_left v a) (ih (max v a))

/-- Helper: a left fold of `max` dominates every list element. -/
theorem mem_le_foldl_max (vs : List ℚ) : ∀ v x : ℚ, x ∈ vs → x ≤ vs.foldl max v := by
  induction vs with
  | nil => intro v x hx; simp at hx
  | cons a l ih =>
    intro v x hx
    rcases List.mem_cons.1 hx with rfl | hx
    · exact le_trans (le_max_right v x) (le_foldl_max_init l (max v x))
    · exact ih (max v a) x hx

/-- Helper: the lower histogram bound does not exceed the minimum. -/
theorem lowerEdge_le (minR w : ℚ) (hw : 0 < w) : lowerEdge minR w ≤ minR := by
  rw [lowerEdge]
  have h := Int.floor_le (minR / w)
  have h2 := mul_le_mul_of_nonneg_right h hw.le
  rwa [div_mul_cancel₀ _ hw.ne'] at h2

/-- Helper: the minimum lies below the second bin edge. -/
theorem lt_lowerEdge_add (minR w : ℚ) (hw : 0 < w) :
    minR < lowerEdge minR w + w := by
  rw [lowerEdge]
  have h := Int.lt_floor_add_one (minR / w)
  have h2 := mul_lt_mul_of_pos_right h hw
  rw [add_mul, one_mul, div_mul_cancel₀ _ hw.ne'] at h2
  exact h2

/-- Helper: the maximum lies below the upper histogram bound. -/
theorem le_ceil_mul (maxR w : ℚ) (hw : 0 < w) : maxR ≤ (⌈maxR / w⌉ : ℚ) * w := by
  have h := Int.le_ceil (maxR / w)
  have h2 := mul_le_mul_of_nonneg_right h hw.le
  rwa [div_mul_cancel₀ _ hw.ne'] at h2

/-- Helper: the last bin edge is the upper bound `ceil(max / w) * w`. -/
theorem lowerEdge_add_nBins (minR maxR w : ℚ) (hw : 0 < w) (hmm : minR ≤ maxR) :
    lowerEdge minR w + (nBins minR maxR w : ℚ) * w = (⌈maxR / w⌉ : ℚ) * w := by
  have hdiv : minR / w ≤ maxR / w := (div_le_div_iff_of_pos_right hw).2 hmm
  have hlohi : ⌊minR / w⌋ ≤ ⌈maxR / w⌉ := by
    have h1 : ((⌊minR / w⌋ : ℤ) : ℚ) ≤ ((⌈maxR / w⌉ : ℤ) : ℚ) :=
      le_trans (Int.floor_le _) (le_trans hdiv (Int.le_ceil _))
    exact_mod_cast h1
  have hc : (((⌈maxR / w⌉ - ⌊minR / w⌋).toNat : ℕ) : ℚ) =
      (⌈maxR / w⌉ : ℚ) - (⌊minR / w⌋ : ℚ) := by
    have h2 : (((⌈maxR / w⌉ - ⌊minR / w⌋).toNat : ℕ) : ℤ) = ⌈maxR / w⌉ - ⌊minR / w⌋ :=
      Int.toNat_of_nonneg (sub_nonneg.2 hlohi)
    exact_mod_cast h2
  rw [lowerEdge, nBins, hc]
  ring

/-- Helper: propositional description of `np.histogram` bin membership. -/
theorem inBin_iff (lower w : ℚ) (m i : ℕ) (x : ℚ) :
    inBin lower w m i x = true ↔
      lower + i * w ≤ x ∧
        (x < lower + (i + 1) * w ∨ (i + 1 = m ∧ x = lower + (i + 1) * w)) := by
  simp [inBin]

/-- Helper: two distinct bins cannot both contain a value. -/
theorem bin_mem_unique_aux (lower w : ℚ) (m : ℕ) (x : ℚ) (hw : 0 < w) :
    ∀ i j : ℕ, i < j → j < m →
      inBin lower w m i x = true → inBin lower w m j x = true → False := by
  intro i j hij hjm hi hj
  rw [inBin_iff] at hi hj
  rcases hi.2 with hlt | ⟨heq, _⟩
  · have hle : ((i : ℚ) + 1) ≤ (j : ℚ) := by exact_mod_cast hij
    have hmul : ((i : ℚ) + 1) * w ≤ (j : ℚ) * w := mul_le_mul_of_nonneg_right hle hw.le
    have := hj.1
    linarith
  · omega

/-- Helper: every value between the lowest and highest bin edge lies in
exactly one bin — the half-open one containing it, or the final closed bin
when the value is the top edge. -/
theorem exists_unique_bin (lower w : ℚ) (m : ℕ) (x : ℚ) (hw : 0 < w)
    (hm : 1 ≤ m) (hlo : lower ≤ x) (hhi : x ≤ lower + m * w) :
    ∃! i, i < m ∧ inBin lower w m i x = true := by
  have huniq : ∀ i j : ℕ, (i < m ∧ inBin lower w m i x = true) →
      (j < m ∧ inBin lower w m j x = true) → i = j := by
    intro i j ⟨him, hi⟩ ⟨hjm, hj⟩
    rcases Nat.lt_trichotomy i j with h | h | h
    · exact absurd (bin_mem_unique_aux lower w m x hw i j h hjm hi hj) not_false
    · exact h
    · exact absurd (bin_mem_unique_aux lower w m x hw j i h him hj hi) not_false
  by_cases hx : x = lower + m * w
  · have hc : ((m - 1 : ℕ) : ℚ) = (m : ℚ) - 1 := by
      have h1 : (1 : ℕ) ≤ m := hm
      push_cast [Nat.cast_sub h1]
      ring
    have hbin : inBin lower w m (m - 1) x = true := by
      rw [inBin_iff]
      constructor
      · rw [hc, hx]
        have : ((m : ℚ) - 1) * w ≤ (m : ℚ) * w :=
          mul_le_mul_of_nonneg_right (by linarith) hw.le
        linarith
      · right
        refine ⟨by omega, ?_⟩
        rw [hc, hx]
        ring
    exact ⟨m - 1, ⟨by omega, hbin⟩, fun j hj => huniq j (m - 1) hj ⟨by omega, hbin⟩⟩
  · have hlt : x < lower + m * w := lt_of_le_of_ne hhi hx
    have hy0 : 0 ≤ (x - lower) / w := div_nonneg (by linarith) hw.le
    have hj0 : 0 ≤ ⌊(x - lower) / w⌋ := Int.floor_nonneg.2 hy0
    have hjlt : ⌊(x - lower) / w⌋ < (m : ℤ) := by
      rw [Int.floor_lt, div_lt_iff₀ hw]
      push_cast
      linarith
    have hcast : ((⌊(x - lower) / w⌋.toNat : ℕ) : ℚ) = ((⌊(x - lower) / w⌋ : ℤ) : ℚ) := by
      exact_mod_cast Int.toNat_of_nonneg hj0
    have hbin : inBin lower w m ⌊(x - lower) / w⌋.toNat x = true := by
      rw [inBin_iff]
      constructor
      · have h1 : ((⌊(x - lower) / w⌋ : ℤ) : ℚ) ≤ (x - lower) / w := Int.floor_le _
        have h2 := mul_le_mul_of_nonneg_right h1 hw.le
        rw [div_mul_cancel₀ _ hw.ne'] at h2
        rw [hcast]
        linarith
      · left
        have h1 : (x - lower) / w < ((⌊(x - lower) / w⌋ : ℤ) : ℚ) + 1 :=
          Int.lt_floor_add_one _
        have h2 := mul_lt_mul_of_pos_right h1 hw
        rw [div_mul_cancel₀ _ hw.ne'] at h2
        rw [hcast]
        nlinarith
    have hjm : ⌊(x - lower) / w⌋.toNat < m := by omega
    exact ⟨⌊(x - lower) / w⌋.toNat, ⟨hjm, hbin⟩,
      fun k hk => huniq k ⌊(x - lower) / w⌋.toNat hk ⟨hjm, hbin⟩⟩

/-- Helper: an integer formatted with `:+.0f` rounds to itself. -/
theorem roundHalfEven_intCast (k : ℤ) : roundHalfEven (k : ℚ) = k := by
  rw [roundHalfEven, Int.floor_intCast]
  norm_num

/-- Helper: the label of an integer-valued bin edge. -/
theorem binLabel_intCast (k : ℤ) :
    binLabel (k : ℚ) =
      if k = 0 then "0%"
      else if 0 < k then "+" ++ toString k ++ "%"
      else "-" ++ toString (-k) ++ "%" := by
  rw [binLabel]
  by_cases h0 : k = 0
  · subst h0; simp
  · rw [if_neg (by exact_mod_cast h0), if_neg h0]
    by_cases hpos : 0 < k
    · rw [if_pos (by exact_mod_cast hpos), if_pos hpos, roundHalfEven_intCast]
    · rw [if_neg (by exact_mod_cast hpos), if_neg hpos]
      have hc : (-(k : ℚ)) = ((-k : ℤ) : ℚ) := by push_cast; ring
      rw [hc, roundHalfEven_intCast]

/-- C5 counterexample: the non-empty return series `[0, 0]` with
`bin_width = 1` produces a zero-bin histogram (the derived lower and upper
bounds coincide), whose proportions sum to 0, not approximately 100 — the
claim fails as stated over every non-empty return series. -/
theorem C5_mass_counterexample :
    calculate_distribution [some 0, some 0] 1 = some [] ∧
    (((calculate_distribution [some 0, some 0] 1).getD []).map Prod.snd).sum = 0 := by
  have h : calculate_distribution [some 0, some 0] 1 = some [] := by
    simp only [calculate_distribution, List.filterMap_cons, List.filterMap_nil, id]
    norm_num [binCounts, binEdges, nBins, lowerEdge]
  exact ⟨h, by rw [h]; simp⟩

/-- C5 (amended): for every return series, bin width `w > 0` and produced
histogram with at least one bin, the proportions sum to exactly 100 — each
bin holds `count / w / total * 100 * w` and the normalizing total is the sum
of the counts. -/
theorem C5_mass_conservation (ret : List (Option ℚ)) (w : ℚ) (l : List (String × ℚ))
    (hw : 0 < w) (hl : calculate_distribution ret w = some l) (hne : l ≠ []) :
    (l.map Prod.snd).sum = 100 := by
  rcases hv : ret.filterMap id with _ | ⟨v, vs⟩
  · rw [calculate_distribution_eq_none ret w hv] at hl
    exact absurd hl (by simp)
  · rw [calculate_distribution_eq ret w v vs hv] at hl
    set minR := vs.foldl min v with hminR
    set maxR := vs.foldl max v with hmaxR
    set m := nBins minR maxR w with hmdef
    set lower := lowerEdge minR w with hlower
    set counts := binCounts (v :: vs) lower w m with hcounts
    set T : ℚ := (counts.map (fun (c : ℕ) => (c : ℚ))).sum with hT
    obtain rfl : l = _ := (Option.some.inj hl).symm
    have hlen_counts : counts.length = m := by simp [hcounts, binCounts]
    have hlen_labels : ((binEdges minR maxR w).dropLast.map binLabel).length = m := by
      simp [binEdges]
    have hm1 : 1 ≤ m := by
      rcases Nat.eq_zero_or_pos m with h0 | h1
      · exfalso
        apply hne
        have hlab : ((binEdges minR maxR w).dropLast.map binLabel) = [] := by
          rw [← List.length_eq_zero, hlen_labels, h0]
        rw [hlab]
        simp
      · exact h1
    have hbin0 : inBin lower w m 0 minR = true := by
      rw [inBin_iff]
      refine ⟨?_, Or.inl ?_⟩
      · push_cast
        simpa using lowerEdge_le minR w hw
      · push_cast
        simpa using lt_lowerEdge_add minR w hw
    have hcount0 : 0 < (v :: vs).countP (inBin lower w m 0) :=
      List.countP_pos_iff.2 ⟨minR, foldl_min_mem vs v, hbin0⟩
    obtain ⟨m', hm'⟩ : ∃ m', m = m' + 1 := ⟨m - 1, by omega⟩
    have hsum_ne : counts.sum ≠ 0 := by
      rw [hcounts, binCounts, hm', List.range_succ_eq_map, List.map_cons, List.sum_cons]
      have := hcount0
      rw [← hm']
      omega
    have hT0 : T ≠ 0 := by
      have hTe : T = ((counts.sum : ℕ) : ℚ) := by
        rw [hT]; exact (Nat.cast_list_sum counts).symm
      rw [hTe]
      exact_mod_cast hsum_ne
    have hw' : w ≠ 0 := hw.ne'
    have hstep : ∀ c : ℕ, (c : ℚ) / w / T * 100 * w = (c : ℚ) * (100 / T) := by
      intro c; field_simp; ring
    rw [List.map_snd_zip _ _ (by rw [hlen_labels]; simp [hlen_counts])]
    calc (counts.map (fun (c : ℕ) => (c : ℚ) / w / T * 100 * w)).sum
        = (counts.map (fun (c : ℕ) => (c : ℚ) * (100 / T))).sum := by
          simp only [hstep]
      _ = ((counts.map (fun (c : ℕ) => (c : ℚ))).sum) * (100 / T) :=
          List.sum_map_mul_right _ _ _
      _ = T * (100 / T) := by rw [hT]
      _ = 100 := by field_simp

/-- Witness for C5 at the concrete return series `[1, 2]` with bin width 1:
the single produced bin carries 100 percent. -/
theorem C5_mass_conservation_witness :
    (((calculate_distribution [some 1, some 2] 1).getD []).map Prod.snd).sum = 100 := by
  have h : calculate_distribution [some 1, some 2] 1 = some [("+1%", 100)] := by
    simp only [calculate_distribution, List.filterMap_cons, List.filterMap_nil, id]
    norm_num [binCounts, binEdges, nBins, lowerEdge, inBin, List.countP_cons,
      List.countP_nil]
    simp only [show ((1 : ℤ)).toNat = 1 from rfl, List.range_succ, List.range_zero]
    norm_num [List.flatMap_cons, List.flatMap_nil, binLabel, roundHalfEven]
    rfl
  have h2 := C5_mass_conservation [some 1, some 2] 1 [("+1%", 100)]
    (by norm_num) h (by simp)
  rw [h, Option.getD_some]
  exact h2

/-- Helper: the `return` column values of a constant replicated series. -/
theorem filterMap_id_replicate (n : ℕ) (r : ℚ) :
    (List.replicate n (some r)).filterMap id = List.replicate n r := by
  induction n with
  | zero => rfl
  | succ k ih => simp [List.replicate_succ, ih]

/-- Helper: folding `min` over a constant list. -/
theorem foldl_min_replicate (k : ℕ) (r : ℚ) :
    (List.replicate k r).foldl min r = r := by
  induction k with
  | zero => rfl
  | succ j ih => simp [List.replicate_succ, min_self, ih]

/-- Helper: folding `max` over a constant list. -/
theorem foldl_max_replicate (k : ℕ) (r : ℚ) :
    (List.replicate k r).foldl max r = r := by
  induction k with
  | zero => rfl
  | succ j ih => simp [List.replicate_succ, max_self, ih]

/-- C9 counterexample: at the claim's own corner — a non-empty constant
return series whose single value is an exact multiple of the bin width —
the histogram computation does not fail: it returns an empty distribution. -/
theorem C9_degenerate_counterexample :
    calculate_distribution [some 0] 1 = some [] ∧
    calculate_distribution [some 0] 1 ≠ none := by
  have h : calculate_distribution [some 0] 1 = some [] := by
    simp only [calculate_distribution, List.filterMap_cons, List.filterMap_nil, id]
    norm_num [binCounts, binEdges, nBins, lowerEdge]
  exact ⟨h, by rw [h]; simp⟩

/-- C9 (amended): for every non-empty constant return series whose single
distinct value is an exact multiple of the bin width, the computed lower and
upper bounds coincide, the bin-edge sequence contains only one edge, and the
histogram is returned as an empty, zero-bin distribution (`np.histogram`
produces an empty count array) instead of a one-bin distribution. -/
theorem C9_degenerate_zero_bins (r w : ℚ) (k : ℤ) (n : ℕ)
    (hw : 0 < w) (hr : r = k * w) (hn : 0 < n) :
    calculate_distribution (List.replicate n (some r)) w = some [] := by
  obtain ⟨m, rfl⟩ : ∃ m, n = m + 1 := ⟨n - 1, by omega⟩
  have hv : (List.replicate (m + 1) (some r)).filterMap id = r :: List.replicate m r := by
    rw [filterMap_id_replicate, List.replicate_succ]
  rw [calculate_distribution_eq _ _ _ _ hv, foldl_min_replicate, foldl_max_replicate]
  have hrw : r / w = (k : ℚ) := by rw [hr]; field_simp
  have h0 : nBins r r w = 0 := by
    simp [nBins, hrw, Int.floor_intCast, Int.ceil_intCast]
  simp [binCounts, binEdges, h0]

/-- Witness for C9 at the constant series `[5]` with bin width 1 (5 is an
exact multiple of 1): the distribution comes back empty. -/
theorem C9_degenerate_zero_bins_witness :
    calculate_distribution (List.replicate 1 (some (5 : ℚ))) 1 = some [] :=
  C9_degenerate_zero_bins 5 1 5 1 (by norm_num) (by norm_num) (by norm_num)

/-- C6 counterexample: for returns `[-1, 0, 1]` with bin width 1 the code
produces two bins — `[-1, 0)` labelled `"-1%"` with one observation
(≈33.33 percent) and the final closed bin `[0, 1]` labelled `"0%"` with two
observations (≈66.67 percent) — not the three one-observation bins labelled
`"-1%"`, `"0%"`, `"+1%"` the claim states (the edges `-1, 0, 1` bound only
two bins). -/
theorem C6_three_bins_counterexample :
    calculate_distribution [some (-1), some 0, some 1] 1 =
      some [("-1%", 100 / 3), ("0%", 200 / 3)] ∧
    ¬ ∃ x y z, calculate_distribution [some (-1), some 0, some 1] 1 =
      some [x, y, z] := by
  have h : calculate_distribution [some (-1), some 0, some 1] 1 =
      some [("-1%", 100 / 3), ("0%", 200 / 3)] := by
    simp only [calculate_distribution, List.filterMap_cons, List.filterMap_nil, id]
    norm_num [binCounts, binEdges, nBins, lowerEdge, inBin, List.countP_cons,
      List.countP_nil]
    simp only [show ((2 : ℤ)).toNat = 2 from rfl, List.range_succ, List.range_zero]
    norm_num [List.flatMap_cons, List.flatMap_nil, binLabel, roundHalfEven]
    rfl
  refine ⟨h, ?_⟩
  rintro ⟨x, y, z, hxyz⟩
  rw [h] at hxyz
  simp at hxyz

/-- C6 (amended): the histogram bounds are `floor(min/w)*w` and
`ceil(max/w)*w`; the edges are the arithmetic sequence of
`nBins + 1` values from the lower to the upper bound in steps of `w`; when
there is at least one bin, every value of the series falls into exactly one
half-open bin, the final bin also accepting its right edge; integer-valued
edges are labelled `"0%"`, `"+N%"` or `"-N%"`; and the concrete case
`[-1, 0, 1]` with width 1 yields the two bins `("-1%", 100/3)` and
`("0%", 200/3)`. -/
theorem C6_bin_structure (v : ℚ) (vs : List ℚ) (w minR maxR : ℚ) (hw : 0 < w)
    (hmin : minR = vs.foldl min v) (hmax : maxR = vs.foldl max v) :
    (lowerEdge minR w ≤ minR ∧
      maxR ≤ lowerEdge minR w + (nBins minR maxR w : ℚ) * w) ∧
    ((binEdges minR maxR w).length = nBins minR maxR w + 1 ∧
      (binEdges minR maxR w)[0]? = some (lowerEdge minR w) ∧
      (binEdges minR maxR w)[nBins minR maxR w]? = some ((⌈maxR / w⌉ : ℚ) * w)) ∧
    (∀ x ∈ v :: vs, 1 ≤ nBins minR maxR w →
      ∃! i, i < nBins minR maxR w ∧
        inBin (lowerEdge minR w) w (nBins minR maxR w) i x = true) ∧
    (∀ k : ℤ,
      binLabel (k : ℚ) =
        if k = 0 then "0%"
        else if 0 < k then "+" ++ toString k ++ "%"
        else "-" ++ toString (-k) ++ "%") ∧
    calculate_distribution [some (-1), some 0, some 1] 1 =
      some [("-1%", 100 / 3), ("0%", 200 / 3)] := by
  have hmm : minR ≤ maxR := by
    rw [hmin, hmax]
    exact le_trans (foldl_min_le_init vs v) (le_foldl_max_init vs v)
  refine ⟨⟨lowerEdge_le minR w hw, ?_⟩, ⟨?_, ?_, ?_⟩, ?_, binLabel_intCast, ?_⟩
  · rw [lowerEdge_add_nBins minR maxR w hw hmm]
    exact le_ceil_mul maxR w hw
  · simp [binEdges]
  · simp [binEdges]
  · have he : (binEdges minR maxR w)[nBins minR maxR w]? =
        some (lowerEdge minR w + (nBins minR maxR w : ℚ) * w) := by
      simp [binEdges]
    rw [he, lowerEdge_add_nBins minR maxR w hw hmm]
  · intro x hx hm1
    apply exists_unique_bin _ _ _ _ hw hm1
    · have h1 : minR ≤ x := by
        rw [hmin]
        rcases List.mem_cons.1 hx with rfl | hxm
        · exact foldl_min_le_init vs x
        · exact foldl_min_le_mem vs v x hxm
      exact le_trans (lowerEdge_le minR w hw) h1
    · have h2 : x ≤ maxR := by
        rw [hmax]
        rcases List.mem_cons.1 hx with rfl | hxm
        · exact le_foldl_max_init vs x
        · exact mem_le_foldl_max vs v x hxm
      calc x ≤ maxR := h2
        _ ≤ lowerEdge minR w + (nBins minR maxR w : ℚ) * w := by
            rw [lowerEdge_add_nBins minR maxR w hw hmm]
            exact le_ceil_mul maxR w hw
  · simp only [calculate_distribution, List.filterMap_cons, List.filterMap_nil, id]
    norm_num [binCounts, binEdges, nBins, lowerEdge, inBin, List.countP_cons,
      List.countP_nil]
    simp only [show ((2 : ℤ)).toNat = 2 from rfl, List.range_succ, List.range_zero]
    norm_num [List.flatMap_cons, List.flatMap_nil, binLabel, roundHalfEven]
    rfl

/-- Witness for C6 at the series `[-1, 0, 1]` with bin width 1: the first
edge is the lower bound and the value 0 falls into exactly one of the bins. -/
theorem C6_bin_structure_witness :
    (binEdges (-1) 1 1)[0]? = some (lowerEdge (-1) 1) ∧
    (∃! i, i < nBins (-1) 1 1 ∧
      inBin (lowerEdge (-1) 1) 1 (nBins (-1) 1 1) i 0 = true) := by
  have h := C6_bin_structure (-1) [0, 1] 1 (-1) 1 (by norm_num)
    (by norm_num [List.foldl_cons, List.foldl_nil, min_def])
    (by norm_num [List.foldl_cons, List.foldl_nil, max_def])
  exact ⟨h.2.1.2.1, h.2.2.1 0 (by simp) (by norm_num [nBins])⟩

end CryptoAnalyzer
